import Mathlib

/-!
Shallow embedding of the `neurosynthplus` meta-analysis model
(`src/neurosynthplus/src/metaplus.py` and `src/neurosynthplus/gui/globals.py`).

Modelling conventions:
* voxel values (numpy float arrays) are modelled as `List ℚ`;
* Python ordered dicts are modelled as ordered association lists with
  first-match lookup;
* functions that can raise are modelled in `Except String` (the message is
  the Python exception message) or `Option`;
* Python `str(x)` on a number is modelled with `toString` on `ℚ` (the exact
  rendering never matters for the verified properties);
* the Tkinter widget layer is modelled by the text and colour the code
  writes into the status bar label.
-/

/-- The characters of Python's `string.punctuation`
(ASCII 33–47, 58–64, 91–96, 123–126). -/
def pyPunctuation : List Char :=
  ((List.range 128).filter (fun n =>
    (33 ≤ n && n ≤ 47) || (58 ≤ n && n ≤ 64) ||
    (91 ≤ n && n ≤ 96) || (123 ≤ n && n ≤ 126))).map Char.ofNat

/-- Python `s.strip(chars)`: remove leading and trailing characters
belonging to `cs`. -/
def pyStrip (cs : List Char) (s : List Char) : List Char :=
  ((s.dropWhile (fun c => cs.contains c)).reverse.dropWhile
    (fun c => cs.contains c)).reverse

/-- The ASCII whitespace characters recognised by Python's
no-argument `str.split` (space, tab, newline, vertical tab,
form feed, carriage return). -/
def pyWhitespace (c : Char) : Bool :=
  c = ' ' || c.toNat = 9 || c.toNat = 10 ||
  c.toNat = 11 || c.toNat = 12 || c.toNat = 13

namespace NsInfo

/-- Model of `NsInfo.img_names` from `metaplus.py`. -/
def img_names : List String :=
  ["pA", "pAgF", "pFgA", "uniformity-test_z", "association-test_z"]

/-- Model of `NsInfo.prior_img_names` from `metaplus.py`. -/
def prior_img_names : List String :=
  ["pAgF_given_pF=", "pFgA_given_pF="]

/-- Model of `NsInfo.fdr_img_names` from `metaplus.py`. -/
def fdr_img_names : List String :=
  ["uniformity-test_z_FDR_", "association-test_z_FDR_"]

/-- Model of `NsInfo.shorten_expr`:
`expr.split(' ', maxsplit=1)[0].strip(string.punctuation)` —
the text before the first space character, stripped of surrounding
punctuation.  (`split(' ', 1)[0]` is exactly the prefix of the string
up to the first space.) -/
def shorten_expr (expr : String) : String :=
  String.mk (pyStrip pyPunctuation (expr.data.takeWhile (fun c => c ≠ ' ')))

end NsInfo

/-- Is `c` an ASCII decimal digit? -/
def isDigitChar (c : Char) : Bool :=
  48 ≤ c.toNat && c.toNat ≤ 57

/-- Numeric value of a digit character. -/
def digitVal (c : Char) : Nat :=
  c.toNat - 48

/-- The digit character for `d < 10`. -/
def digitChar (d : Nat) : Char :=
  Char.ofNat (48 + d)

/-- Value of a digit string read most-significant first. -/
def digitsVal (cs : List Char) : Nat :=
  cs.foldl (fun a c => 10 * a + digitVal c) 0

/-- Python `float` restricted to unsigned decimal literals
(`"123"`, `"12.5"`, `"0.05"`, `".5"`, `"3."`); `none` models `ValueError`. -/
def parseUnsignedFloat (cs : List Char) : Option ℚ :=
  let intPart := cs.takeWhile (fun c => c ≠ '.')
  match cs.drop intPart.length with
  | [] => if intPart ≠ [] && intPart.all isDigitChar
          then some ((digitsVal intPart : ℚ)) else none
  | _ :: frac =>
      if !frac.contains '.' && intPart.all isDigitChar && frac.all isDigitChar
          && (intPart ≠ [] || frac ≠ [])
      then some ((digitsVal intPart : ℚ) + (digitsVal frac : ℚ) / 10 ^ frac.length)
      else none

/-- Python `float` on decimal literals with an optional leading minus sign. -/
def parseFloat (cs : List Char) : Option ℚ :=
  match cs with
  | c :: rest => if c = Char.ofNat 45
                 then (parseUnsignedFloat rest).map (fun q => -q)
                 else parseUnsignedFloat cs
  | [] => none

/-- Digits of `n`, most significant first, by fuel-bounded recursion
(empty for `n = 0`; correct whenever `n ≤ fuel`). -/
def natDigitsAux : Nat → Nat → List Char
  | 0, _ => []
  | fuel + 1, n =>
      if n = 0 then []
      else natDigitsAux fuel (n / 10) ++ [digitChar (n % 10)]

/-- Standard decimal digits of a natural number, most significant first
(no leading zeros, `0 ↦ "0"`). -/
def natDigits (n : Nat) : List Char :=
  if n = 0 then ['0'] else natDigitsAux n n

/-- Exactly `k` decimal digits of `m` (mod `10 ^ k`), zero-padded. -/
def natDigitsPad (m k : Nat) : List Char :=
  match k with
  | 0 => []
  | k + 1 => natDigitsPad (m / 10) k ++ [digitChar (m % 10)]

/-- The decimal rendering of the number `(-1)^neg * n / 10^k`:
sign, then the digits of the integer part, then (when `k > 0`) a decimal
point and `k` fraction digits.  This is the trailing numeric suffix format
of the parametrized image-name families. -/
def renderDec (neg : Bool) (n k : Nat) : List Char :=
  (if neg then [Char.ofNat 45] else []) ++
  natDigits (n / 10 ^ k) ++
  (if k = 0 then [] else '.' :: natDigitsPad (n % 10 ^ k) k)

/-- The rational value rendered by `renderDec neg n k`. -/
def decVal (neg : Bool) (n k : Nat) : ℚ :=
  (if neg then -1 else 1) * (n : ℚ) / 10 ^ k

/-- Result of `NsInfo.get_num_from_img_name`: the empty dictionary,
`{'prior': x}`, or `{'fdr': x}`. -/
inductive NumInfo where
  | empty : NumInfo
  | prior (x : ℚ) : NumInfo
  | fdr (x : ℚ) : NumInfo
deriving DecidableEq

namespace NsInfo

/-- The first name in `names` occurring as a substring of `image_name`,
returning the characters of `image_name` after position `len(name)`
(Python `image_name[len(name):]`). -/
def findParamSuffix (names : List String) (image_name : String) : Option (List Char) :=
  match names with
  | [] => none
  | p :: rest =>
      if p.data <:+: image_name.data
      then some (image_name.data.drop p.length)
      else findParamSuffix rest image_name

/-- Model of `NsInfo.get_num_from_img_name`: base names map to the empty dictionary;
otherwise the first matching prior/FDR family name determines a numeric
suffix parsed with `float` (`none` models the `ValueError` raised by a
malformed suffix). -/
def get_num_from_img_name (image_name : String) : Option NumInfo :=
  if image_name ∈ img_names then some NumInfo.empty
  else
    match findParamSuffix prior_img_names image_name with
    | some num => (parseFloat num).map NumInfo.prior
    | none =>
        match findParamSuffix fdr_img_names image_name with
        | some num => (parseFloat num).map NumInfo.fdr
        | none => some NumInfo.empty

end NsInfo

/-- The short name the SPEC describes: the first
whitespace-delimited token of the expression (leading whitespace skipped,
token ends at the first whitespace character), stripped of surrounding
punctuation.  Stated from the spec's words for comparison with
`NsInfo.shorten_expr`. -/
def shorten_expr_spec (expr : String) : String :=
  String.mk (pyStrip pyPunctuation
    ((expr.data.dropWhile pyWhitespace).takeWhile (fun c => !pyWhitespace c)))

/-- Model of `MetaAnalysisPlus.Info`: the ordered metadata dictionary (modelled as an
ordered association list of string keys and string values) together with the
derived `name` attribute. -/
structure Info where
  pairs : List (String × String)
  name : String
deriving DecidableEq

/-- Ordered-dict lookup: value of the first pair with the given key,
if any (`None`-free model of `key in dict` / `dict[key]`). -/
def lookupKey (pairs : List (String × String)) (k : String) : Option String :=
  (pairs.find? (fun p => p.1 == k)).map Prod.snd

/-- Model of `Info.get_shorthand`: short description used for file names.  Empty
unless an `'expression'` entry exists; the shortened expression, extended
with `'_vs_' + shortened contrary expression` when a
`'contrary expression'` entry also exists. -/
def Info.get_shorthand (pairs : List (String × String)) : String :=
  match lookupKey pairs ("expression") with
  | none => ""
  | some e =>
      match lookupKey pairs ("contrary expression") with
      | none => NsInfo.shorten_expr e
      | some c => NsInfo.shorten_expr e ++ "_vs_" ++ NsInfo.shorten_expr c

/-- Model of `Info.__init__`: store the pairs and derive `name` via `get_shorthand`. -/
def Info.ofPairs (pairs : List (String × String)) : Info :=
  ⟨pairs, Info.get_shorthand pairs⟩

/-- Model of `Info.set_name`. -/
def Info.set_name (i : Info) (n : String) : Info :=
  { i with name := n }

/-- Model of a `MetaAnalysisPlus` object constructed from existing images: an `Info`, a
reference to the shared dataset (opaque handle), and the ordered mapping
from image name to voxel array. -/
structure MetaAnalysisPlus where
  info : Info
  dataset : Nat
  images : List (String × List ℚ)
deriving DecidableEq

/-- Model of `meta.images[name]`: dict lookup of a voxel array
(`none` models `KeyError`). -/
def MetaAnalysisPlus.getImg (m : MetaAnalysisPlus) (name : String) : Option (List ℚ) :=
  (m.images.find? (fun p => p.1 == name)).map Prod.snd

/-- Model of `[meta.images[image_name] for meta in meta_list]`: the named image of
each analysis in order; a missing key raises `KeyError`. -/
def gatherImgs (meta_list : List MetaAnalysisPlus) (image_name : String) :
    Except String (List (List ℚ)) :=
  match meta_list with
  | [] => Except.ok []
  | m :: rest =>
      match m.getImg image_name with
      | none => Except.error ("KeyError: " ++ image_name)
      | some img =>
          match gatherImgs rest image_name with
          | Except.error e => Except.error e
          | Except.ok imgs => Except.ok (img :: imgs)

/-- Model of `np.sum(pred(src_imgs), axis=0)` for a stack of equal-length voxel
arrays: the per-voxel number of arrays whose value satisfies `pred`. -/
def countImage (pred : ℚ → Bool) (imgs : List (List ℚ)) : List ℕ :=
  match imgs with
  | [] => []
  | i0 :: rest =>
      rest.foldl
        (fun acc img =>
          List.zipWith (fun c v => c + (if pred v then 1 else 0)) acc img)
        (i0.map (fun v => if pred v then 1 else 0))

/-- Python truthiness of the optional `expression` argument
(`None` and the empty string are falsy). -/
def pyTruthy (s : Option String) : Bool :=
  match s with
  | none => false
  | some str => str ≠ ""

/-- The threshold branch of `conjunction`: the counted image (as numpy
booleans summed along axis 0) and the `comp_name` criterion string, per
the four code branches.  The both-`None` case is unreachable (already
raised) and returns a dummy.  Python `str` on a threshold is modelled
with `toString`. -/
def conjPair (lower_thr upper_thr : Option ℚ) (src_imgs : List (List ℚ)) :
    List ℕ × String :=
  match upper_thr, lower_thr with
  | none, some l =>
      (countImage (fun v => decide (l < v)) src_imgs, ">" ++ toString l)
  | some u, none =>
      (countImage (fun v => decide (v < u)) src_imgs, "<" ++ toString u)
  | some u, some l =>
      if l < u then
        (countImage (fun v => decide (l < v) && decide (v < u)) src_imgs,
         toString l ++ "-" ++ toString u)
      else
        (countImage (fun v => decide (l < v) || decide (v < u)) src_imgs,
         ">" ++ toString l ++ "or" ++ "<" ++ toString u)
  | none, none => ([], "")

/-- The `Info` object `conjunction` attaches to its result: built from
`[('based on', image_name), ('criterion', comp_name)] + extra_info`, with
the name overridden when a truthy `expression` is supplied. -/
def conjInfo (image_name comp_name : String) (expression : Option String)
    (extra_info : List (String × String)) : Info :=
  if pyTruthy expression then
    (Info.ofPairs ([("based on", image_name), ("criterion", comp_name)]
        ++ extra_info)).set_name
      (NsInfo.shorten_expr (expression.getD "") ++ "_" ++ image_name ++ comp_name)
  else
    Info.ofPairs ([("based on", image_name), ("criterion", comp_name)]
        ++ extra_info)

/-- Model of `MetaAnalysisPlus.conjunction`: per-voxel count of the images (one per
analysis in `meta_list`, selected by `image_name`) passing the threshold
criterion determined by `lower_thr` / `upper_thr`.  Raises when no
threshold is given, when the thresholds are equal, when an analysis lacks
the named image, and (like `meta_list[0]`) when the list is empty.  The
integer counts are stored as the (rational-valued) voxel array of the
single image `'conjunction'`. -/
def MetaAnalysisPlus.conjunction (meta_list : List MetaAnalysisPlus)
    (image_name : String) (lower_thr upper_thr : Option ℚ)
    (expression : Option String) (extra_info : List (String × String)) :
    Except String MetaAnalysisPlus :=
  if lower_thr = none ∧ upper_thr = none then
    Except.error ("Must specify at least one threshold")
  else if lower_thr = upper_thr then
    Except.error ("Lower and upper thresholds must be different")
  else
    match gatherImgs meta_list image_name with
    | Except.error e => Except.error e
    | Except.ok src_imgs =>
        match meta_list with
        | [] => Except.error ("IndexError: list index out of range")
        | m0 :: _ =>
            Except.ok
              ⟨conjInfo image_name (conjPair lower_thr upper_thr src_imgs).2
                  expression extra_info,
               m0.dataset,
               [("conjunction",
                 (conjPair lower_thr upper_thr src_imgs).1.map
                   (fun n => (n : ℚ)))]⟩

/-- Model of `np.mean([...], axis=0)`: pointwise sum of the stacked
equal-length arrays divided by the number of arrays. -/
def meanImg (cols : List (List ℚ)) : List ℚ :=
  (match cols with
   | [] => []
   | i0 :: rest => rest.foldl (fun acc img => List.zipWith (· + ·) acc img) i0
  ).map (fun v => v / (cols.length : ℚ))

/-- The `for img in meta_list[0].images` loop of `mean`: for each image
name of the head analysis, the mean of that image across `meta_list`. -/
def buildMeanImgs (meta_list : List MetaAnalysisPlus) :
    List (String × List ℚ) → Except String (List (String × List ℚ))
  | [] => Except.ok []
  | (k, _) :: ps =>
      match gatherImgs meta_list k with
      | Except.error e => Except.error e
      | Except.ok cols =>
          match buildMeanImgs meta_list ps with
          | Except.error e => Except.error e
          | Except.ok rest => Except.ok ((k, meanImg cols) :: rest)

/-- Model of `MetaAnalysisPlus.mean`: errors on an empty list, returns the sole
element of a singleton list, and otherwise builds a new object from the
head's info and dataset with the per-name mean images. -/
def MetaAnalysisPlus.mean (meta_list : List MetaAnalysisPlus) :
    Except String MetaAnalysisPlus :=
  match meta_list with
  | [] => Except.error ("Empty list")
  | [m] => Except.ok m
  | m0 :: m1 :: rest =>
      match buildMeanImgs (m0 :: m1 :: rest) m0.images with
      | Except.error e => Except.error e
      | Except.ok mimgs => Except.ok ⟨m0.info, m0.dataset, mimgs⟩

/-- The threshold predicate the SPEC describes, case by case: only lower →
strictly greater; only upper → strictly less; both with `lower < upper` →
both conditions; both with `lower > upper` → either condition.  Stated
from the spec's words for comparison with the code's branches. -/
def threshPred (lower upper : Option ℚ) (v : ℚ) : Bool :=
  match lower, upper with
  | some l, none => decide (l < v)
  | none, some u => decide (v < u)
  | some l, some u =>
      if l < u then decide (l < v) && decide (v < u)
      else decide (l < v) || decide (v < u)
  | none, none => false

/-- The observable state of the `Global` singleton relevant to status
updates: the status string, the busy/ready flag, the error flag, the
status history, and the text and colour currently shown in the status bar
label (`globals.py`). -/
structure GlobalState where
  status : String
  is_ready : Bool
  has_error : Bool
  history : List String
  statusbar_text : String
  text_color : String
deriving DecidableEq

/-- Model of `Global.text_width`. -/
def text_width : Nat := 80

/-- Python `s.ljust(w)`. -/
def pyLjust (s : String) (w : Nat) : String :=
  s ++ String.mk (List.replicate (w - s.length) ' ')

/-- Model of `Global._update_status` (not thread safe): set the status string and
error flag, append to the history, and rewrite the label text (truncated
or padded to `text_width`) and colour.  Does not touch `is_ready`. -/
def updateStatusRaw (g : GlobalState) (status : String)
    (is_ready is_error : Bool) : GlobalState :=
  let statusbar_text :=
    if status.length > text_width
    then String.mk (status.data.take (text_width - 3)) ++ "..."
    else pyLjust status text_width
  let color :=
    if is_error then "#ff0000"
    else if is_ready then "#90ee90"
    else "#e3e3e3"
  { g with
    status := status
    has_error := is_error
    history := g.history ++ [status]
    statusbar_text := statusbar_text
    text_color := color }

/-- The warning text shown when a user-requested status change is declined. -/
def busyWarning : String :=
  "Another task is running... Please try again later"

/-- A deferred `statusbar.after(2000, back_to_prev, *prev)` callback:
the delay in milliseconds and the captured previous status and error flag. -/
structure PendingRevert where
  delay_ms : Nat
  prev_status : String
  prev_has_error : Bool
deriving DecidableEq

/-- Model of `Global.update_status` (thread safe): a non-user update, or a user
update while ready, applies the new status and `is_ready`; a user update
while busy is declined — the warning is shown instead, `is_ready` is left
unchanged, and a 2-second revert callback is scheduled with the prior
status and error flag.  Returns whether the update was applied, the new
state, and the scheduled callback, if any. -/
def update_status (g : GlobalState) (status : String)
    (is_ready is_error user_op : Bool) :
    Bool × GlobalState × Option PendingRevert :=
  if !user_op || g.is_ready then
    (true, { updateStatusRaw g status is_ready is_error with is_ready := is_ready },
     none)
  else
    (false, updateStatusRaw g busyWarning false true,
     some ⟨2000, g.status, g.has_error⟩)

/-- The deferred `back_to_prev` callback: if the app is still busy when it
fires, restore the captured status and error flag (leaving `is_ready`
untouched); otherwise do nothing. -/
def back_to_prev (g : GlobalState) (prev_status : String)
    (prev_has_error : Bool) : GlobalState :=
  if !g.is_ready then updateStatusRaw g prev_status false prev_has_error
  else g

/-! ## Mean: identity and error cases -/

/-- Claim C4: `mean` applied to a single-element list returns that sole
element itself, unchanged — the result is the very object in the list,
with identical info, dataset and images. -/
theorem mean_singleton_identity (m : MetaAnalysisPlus) :
    MetaAnalysisPlus.mean [m] = Except.ok m := rfl

/-- Claim C5: `mean` applied to an empty list raises `ValueError('Empty
list')`, immediately, before any aggregation is attempted (no image is
gathered and no result object is constructed). -/
theorem mean_empty_error :
    MetaAnalysisPlus.mean [] = Except.error ("Empty list") := rfl

/-! ## Conjunction: threshold validation -/

/-- Claim C3: `conjunction` raises when neither threshold is given, and
raises whenever the two thresholds are equal; in both cases an error is
returned before any image is gathered or computed and no result object is
constructed. -/
theorem conjunction_threshold_errors :
    (∀ (meta_list : List MetaAnalysisPlus) (image_name : String)
       (expression : Option String) (extra_info : List (String × String)),
       MetaAnalysisPlus.conjunction meta_list image_name none none
           expression extra_info
         = Except.error ("Must specify at least one threshold")) ∧
    (∀ (meta_list : List MetaAnalysisPlus) (image_name : String) (t : ℚ)
       (expression : Option String) (extra_info : List (String × String)),
       MetaAnalysisPlus.conjunction meta_list image_name (some t) (some t)
           expression extra_info
         = Except.error ("Lower and upper thresholds must be different")) := by
  constructor
  · intro meta_list image_name expression extra_info
    simp [MetaAnalysisPlus.conjunction]
  · intro meta_list image_name t expression extra_info
    simp [MetaAnalysisPlus.conjunction]

/-! ## Short names -/

/-- Claim C2, counterexample: for the expression `"\ta"` the code's short
name is `"\ta"` (splitting is on the space character only, so the tab is
kept), while the spec's first whitespace-delimited token with punctuation
stripped is `"a"`. -/
theorem shorten_expr_whitespace_counterexample :
    NsInfo.shorten_expr ("\ta") = "\ta" ∧
    shorten_expr_spec ("\ta") = "a" ∧
    NsInfo.shorten_expr ("\ta") ≠ shorten_expr_spec ("\ta") := by
  refine ⟨by decide, by decide, by decide⟩

lemma takeWhile_congr_of_stop {α : Type} (p q : α → Bool) (l : List α)
    (hpq : ∀ c, q c = false → p c = false)
    (h : ∀ c ∈ l.takeWhile q, p c = true) :
    l.takeWhile p = l.takeWhile q := by
  induction l with
  | nil => rfl
  | cons c cs ih =>
      cases hq : q c with
      | false =>
          rw [List.takeWhile_cons, List.takeWhile_cons, hq, hpq c hq]
          simp
      | true =>
          have hp : p c = true := by
            refine h c ?_
            rw [List.takeWhile_cons, hq]
            exact List.mem_cons_self c _
          have hrest : ∀ d ∈ cs.takeWhile q, p d = true := by
            intro d hd
            refine h d ?_
            rw [List.takeWhile_cons, hq]
            exact List.mem_cons_of_mem c hd
          rw [List.takeWhile_cons, List.takeWhile_cons, hq, hp, ih hrest]

/-- Claim C2, amended: `shorten_expr` equals the expression's first
space-delimited token (the text before the first space character) with
surrounding punctuation stripped; this coincides with the first
whitespace-delimited token of the spec exactly on expressions that do not
begin with a space and whose text before the first space contains no
other whitespace character. -/
theorem shorten_expr_space_token (expr : String)
    (h0 : expr.data.head? ≠ some ' ')
    (h1 : ∀ c ∈ expr.data.takeWhile (fun c => c ≠ ' '), pyWhitespace c = false) :
    NsInfo.shorten_expr expr = shorten_expr_spec expr := by
  unfold NsInfo.shorten_expr shorten_expr_spec
  have hpq : ∀ c : Char, (fun c => decide (c ≠ ' ')) c = false →
      (fun c => !pyWhitespace c) c = false := by
    intro c hc
    have : c = ' ' := by simpa using hc
    subst this
    decide
  have h1' : ∀ c ∈ expr.data.takeWhile (fun c => decide (c ≠ ' ')),
      (fun c => !pyWhitespace c) c = true := by
    intro c hc
    simp [h1 c hc]
  have hdrop : expr.data.dropWhile pyWhitespace = expr.data := by
    cases hl : expr.data with
    | nil => rfl
    | cons c cs =>
        have hc : c ≠ ' ' := by
          intro hsp
          apply h0
          rw [hl, hsp]
          rfl
        have hmem : c ∈ (c :: cs).takeWhile (fun c => decide (c ≠ ' ')) := by
          have hct : (decide (c ≠ ' ')) = true := by simpa using hc
          rw [List.takeWhile_cons, hct]
          simp
        have hw : pyWhitespace c = false := by
          rw [← hl] at hmem
          exact h1 c hmem
        rw [List.dropWhile_cons, hw]
        simp
  rw [hdrop, takeWhile_congr_of_stop (fun c => !pyWhitespace c)
    (fun c => decide (c ≠ ' ')) expr.data hpq h1']

/-- Witness for `shorten_expr_space_token`: at the concrete expression
`"social! cognition"` the hypotheses hold and both the code's and the
spec's short name are `"social"`. -/
theorem shorten_expr_space_token_witness :
    NsInfo.shorten_expr ("social! cognition")
      = shorten_expr_spec ("social! cognition") ∧
    NsInfo.shorten_expr ("social! cognition") = "social" :=
  ⟨shorten_expr_space_token ("social! cognition") (by decide) (by decide),
   by decide⟩

/-- Claim C7: if the info mapping has an `'expression'` entry and a
`'contrary expression'` entry, the derived name — both `get_shorthand`
and the `name` attribute set on construction — is the shortened first
expression, the `'_vs_'` separator, and the shortened contrary
expression. -/
theorem get_shorthand_contrary (pairs : List (String × String)) (e c : String)
    (h1 : lookupKey pairs ("expression") = some e)
    (h2 : lookupKey pairs ("contrary expression") = some c) :
    Info.get_shorthand pairs
      = NsInfo.shorten_expr e ++ "_vs_" ++ NsInfo.shorten_expr c ∧
    (Info.ofPairs pairs).name
      = NsInfo.shorten_expr e ++ "_vs_" ++ NsInfo.shorten_expr c := by
  have h : Info.get_shorthand pairs
      = NsInfo.shorten_expr e ++ "_vs_" ++ NsInfo.shorten_expr c := by
    unfold Info.get_shorthand
    rw [h1, h2]
  exact ⟨h, h⟩

/-- Witness for `get_shorthand_contrary`: a concrete info mapping with
expression `"social cognition"` and contrary expression `"pain!"` gets
the name `"social_vs_pain"`. -/
theorem get_shorthand_contrary_witness :
    Info.get_shorthand [("expression", "social cognition"),
        ("contrary expression", "pain!"), ("num_studies", "1000")]
      = "social_vs_pain" :=
  (get_shorthand_contrary
      [("expression", "social cognition"),
       ("contrary expression", "pain!"), ("num_studies", "1000")]
      ("social cognition") ("pain!") (by decide) (by decide)).1.trans
    (by decide)

/-! ## Status gate -/

/-- Claim C9: a status update with `user_op=True` while the app is busy
(`is_ready = false`) is declined — `update_status` returns `False`, the
status becomes the transient warning instead of the requested one,
`is_ready` is untouched, and a callback with the fixed 2000 ms delay is
scheduled that, applied to any state that is still busy, restores the
prior status and prior error flag.  A user update while ready, or any
non-user update, is applied (status, ready and error flags all take the
requested values) and the call returns `True` with nothing scheduled. -/
theorem update_status_gate (g : GlobalState) (s : String)
    (isr iserr : Bool) :
    (g.is_ready = false →
       (update_status g s isr iserr true).1 = false ∧
       (update_status g s isr iserr true).2.1.status = busyWarning ∧
       (update_status g s isr iserr true).2.1.has_error = true ∧
       (update_status g s isr iserr true).2.1.is_ready = g.is_ready ∧
       (update_status g s isr iserr true).2.2
         = some ⟨2000, g.status, g.has_error⟩ ∧
       (∀ t : GlobalState, t.is_ready = false →
          (back_to_prev t g.status g.has_error).status = g.status ∧
          (back_to_prev t g.status g.has_error).has_error = g.has_error)) ∧
    (g.is_ready = true →
       (update_status g s isr iserr true).1 = true ∧
       (update_status g s isr iserr true).2.1.status = s ∧
       (update_status g s isr iserr true).2.1.is_ready = isr ∧
       (update_status g s isr iserr true).2.1.has_error = iserr ∧
       (update_status g s isr iserr true).2.2 = none) ∧
    ((update_status g s isr iserr false).1 = true ∧
     (update_status g s isr iserr false).2.1.status = s ∧
     (update_status g s isr iserr false).2.1.is_ready = isr ∧
     (update_status g s isr iserr false).2.1.has_error = iserr ∧
     (update_status g s isr iserr false).2.2 = none) := by
  refine ⟨fun hbusy => ?_, fun hready => ?_, ?_⟩
  · simp [update_status, hbusy, updateStatusRaw]
    intro t ht
    simp [back_to_prev, ht, updateStatusRaw]
  · simp [update_status, hready, updateStatusRaw]
  · simp [update_status, updateStatusRaw]

/-- Witness for `update_status_gate`: a concrete busy state declines a
user-requested update, shows the warning, schedules the 2-second revert,
and the fired callback restores the prior status and error flag. -/
theorem update_status_gate_witness :
    (update_status ⟨"Running analysis", false, false, [], "", ""⟩
        ("Ready") true false true).1 = false ∧
    (update_status ⟨"Running analysis", false, false, [], "", ""⟩
        ("Ready") true false true).2.1.status = busyWarning ∧
    (update_status ⟨"Running analysis", false, false, [], "", ""⟩
        ("Ready") true false true).2.2
      = some ⟨2000, "Running analysis", false⟩ ∧
    (back_to_prev ⟨busyWarning, false, true, [], "", ""⟩
        ("Running analysis") false).status = "Running analysis" := by
  have h := update_status_gate ⟨"Running analysis", false, false, [], "", ""⟩
    ("Ready") true false
  obtain ⟨hb, -, -⟩ := h
  obtain ⟨h1, h2, -, -, h5, h6⟩ := hb rfl
  exact ⟨h1, h2, h5,
    (h6 ⟨busyWarning, false, true, [], "", ""⟩ rfl).1⟩

/-! ## Mean over longer lists -/

lemma getImg_isSome (m : MetaAnalysisPlus) (k : String)
    (h : k ∈ m.images.map Prod.fst) : ∃ img, m.getImg k = some img := by
  unfold MetaAnalysisPlus.getImg
  obtain ⟨p, hp, hpk⟩ := List.mem_map.mp h
  have : ∃ x ∈ m.images, (fun p => p.1 == k) x = true :=
    ⟨p, hp, by simp [hpk]⟩
  obtain ⟨q, hfind⟩ := Option.isSome_iff_exists.mp (List.find?_isSome.mpr this)
  exact ⟨q.2, by rw [hfind]; rfl⟩

lemma gatherImgs_ok (meta_list : List MetaAnalysisPlus) (k : String)
    (h : ∀ m ∈ meta_list, k ∈ m.images.map Prod.fst) :
    ∃ imgs, gatherImgs meta_list k = Except.ok imgs ∧
      imgs.length = meta_list.length := by
  induction meta_list with
  | nil => exact ⟨[], rfl, rfl⟩
  | cons m rest ih =>
      obtain ⟨img, himg⟩ := getImg_isSome m k (h m (List.mem_cons_self m rest))
      obtain ⟨imgs, hok, hlen⟩ :=
        ih (fun m' hm' => h m' (List.mem_cons_of_mem m hm'))
      refine ⟨img :: imgs, ?_, by simp [hlen]⟩
      unfold gatherImgs
      rw [himg, hok]

lemma gatherImgs_ok_length (meta_list : List MetaAnalysisPlus) (k : String)
    (imgs : List (List ℚ)) (h : gatherImgs meta_list k = Except.ok imgs) :
    imgs.length = meta_list.length := by
  induction meta_list generalizing imgs with
  | nil =>
      unfold gatherImgs at h
      cases h
      rfl
  | cons m rest ih =>
      unfold gatherImgs at h
      cases himg : m.getImg k with
      | none => rw [himg] at h; cases h
      | some img =>
          rw [himg] at h
          cases hrest : gatherImgs rest k with
          | error e => rw [hrest] at h; cases h
          | ok imgs' =>
              rw [hrest] at h
              cases h
              simp [ih imgs' hrest]

lemma buildMeanImgs_ok (meta_list : List MetaAnalysisPlus)
    (ps : List (String × List ℚ))
    (h : ∀ p ∈ ps, ∀ m ∈ meta_list, p.1 ∈ m.images.map Prod.fst) :
    ∃ ms, buildMeanImgs meta_list ps = Except.ok ms ∧
      ms.map Prod.fst = ps.map Prod.fst := by
  induction ps with
  | nil => exact ⟨[], rfl, rfl⟩
  | cons p ps ih =>
      obtain ⟨k, v⟩ := p
      obtain ⟨cols, hcols, -⟩ := gatherImgs_ok meta_list k
        (fun m hm => h (k, v) (List.mem_cons_self _ _) m hm)
      obtain ⟨ms, hms, hfst⟩ :=
        ih (fun q hq m hm => h q (List.mem_cons_of_mem _ hq) m hm)
      refine ⟨(k, meanImg cols) :: ms, ?_, by simp [hfst]⟩
      unfold buildMeanImgs
      rw [hcols, hms]

/-- Claim C10: for a list of two or more analyses with uniform image-name
sets, `mean` succeeds and the returned object carries the info of the
first element, references the dataset of the first element, and has
exactly the image names of the first element. -/
theorem mean_metadata_from_head (m0 m1 : MetaAnalysisPlus)
    (rest : List MetaAnalysisPlus)
    (huniform : ∀ m ∈ m0 :: m1 :: rest,
      m.images.map Prod.fst = m0.images.map Prod.fst) :
    ∃ r, MetaAnalysisPlus.mean (m0 :: m1 :: rest) = Except.ok r ∧
      r.info = m0.info ∧ r.dataset = m0.dataset ∧
      r.images.map Prod.fst = m0.images.map Prod.fst := by
  have hkeys : ∀ p ∈ m0.images, ∀ m ∈ m0 :: m1 :: rest,
      p.1 ∈ m.images.map Prod.fst := by
    intro p hp m hm
    rw [huniform m hm]
    exact List.mem_map.mpr ⟨p, hp, rfl⟩
  obtain ⟨ms, hms, hfst⟩ := buildMeanImgs_ok (m0 :: m1 :: rest) m0.images hkeys
  refine ⟨⟨m0.info, m0.dataset, ms⟩, ?_, rfl, rfl, hfst⟩
  simp only [MetaAnalysisPlus.mean]
  rw [hms]

/-- Witness for `mean_metadata_from_head`: two concrete analyses with the
same image names; the mean result keeps the head's info, dataset and
image-name set. -/
theorem mean_metadata_from_head_witness :
    ∃ r, MetaAnalysisPlus.mean
        [⟨Info.ofPairs [("expression", "social")], 3,
            [("pA", [1, 2]), ("pAgF", [3, 4])]⟩,
         ⟨Info.ofPairs [("expression", "social")], 3,
            [("pA", [5, 6]), ("pAgF", [7, 8])]⟩]
      = Except.ok r ∧
      r.info = Info.ofPairs [("expression", "social")] ∧
      r.dataset = 3 ∧
      r.images.map Prod.fst = ["pA", "pAgF"] :=
  mean_metadata_from_head
    ⟨Info.ofPairs [("expression", "social")], 3,
        [("pA", [1, 2]), ("pAgF", [3, 4])]⟩
    ⟨Info.ofPairs [("expression", "social")], 3,
        [("pA", [5, 6]), ("pAgF", [7, 8])]⟩
    [] (by decide)

/-! ## Conjunction: result shape -/

/-- Claim C6: every valid call of `conjunction` (any call that returns a
result rather than raising) returns a single new aggregate object whose
images mapping contains exactly one image, named `'conjunction'`, holding
the computed per-voxel counts. -/
theorem conjunction_single_image (meta_list : List MetaAnalysisPlus)
    (image_name : String) (lower_thr upper_thr : Option ℚ)
    (expression : Option String) (extra_info : List (String × String))
    (res : MetaAnalysisPlus)
    (h : MetaAnalysisPlus.conjunction meta_list image_name lower_thr upper_thr
          expression extra_info = Except.ok res) :
    ∃ c, res.images = [("conjunction", c)] := by
  unfold MetaAnalysisPlus.conjunction at h
  split at h
  · simp at h
  · split at h
    · simp at h
    · split at h
      · simp at h
      · split at h
        · simp at h
        · rw [Except.ok.injEq] at h
          exact ⟨_, by rw [← h]⟩

/-- Witness for `conjunction_single_image`: a concrete single-analysis
conjunction call whose result has exactly the one image `'conjunction'`. -/
theorem conjunction_single_image_witness :
    ∃ c,
      (⟨conjInfo ("pA") ((conjPair (some 0) none [[1, -1]]).2) none [],
        0,
        [("conjunction",
          ((conjPair (some 0) none [[1, -1]]).1.map (fun n => (n : ℚ))))]⟩ :
        MetaAnalysisPlus).images
      = [("conjunction", c)] :=
  conjunction_single_image
    [⟨Info.ofPairs [("expression", "x")], 0, [("pA", [1, -1])]⟩]
    ("pA") (some 0) none none [] _ rfl

/-! ## Conjunction: per-voxel counts -/

lemma getD_zipWith_count (pred : ℚ → Bool) (a : List ℕ) (b : List ℚ) (i : ℕ)
    (ha : i < a.length) (hb : i < b.length) :
    (List.zipWith (fun c v => c + (if pred v then 1 else 0)) a b).getD i 0
      = a.getD i 0 + (if pred (b.getD i 0) then 1 else 0) := by
  induction a generalizing b i with
  | nil => simp at ha
  | cons x xs ih =>
      cases b with
      | nil => simp at hb
      | cons y ys =>
          cases i with
          | zero => rfl
          | succ j =>
              simp only [List.zipWith_cons_cons, List.getD_cons_succ]
              exact ih ys j (by simpa using ha) (by simpa using hb)

lemma getD_map_indicator (pred : ℚ → Bool) (l : List ℚ) (i : ℕ)
    (h : i < l.length) :
    (l.map (fun v => if pred v then 1 else 0)).getD i 0
      = (if pred (l.getD i 0) then (1 : ℕ) else 0) := by
  induction l generalizing i with
  | nil => simp at h
  | cons x xs ih =>
      cases i with
      | zero => rfl
      | succ j =>
          simp only [List.map_cons, List.getD_cons_succ]
          exact ih j (by simpa using h)

lemma getD_map_natCast (l : List ℕ) (i : ℕ) (h : i < l.length) :
    (l.map (fun n => (n : ℚ))).getD i 0 = ((l.getD i 0 : ℕ) : ℚ) := by
  induction l generalizing i with
  | nil => simp at h
  | cons x xs ih =>
      cases i with
      | zero => rfl
      | succ j =>
          simp only [List.map_cons, List.getD_cons_succ]
          exact ih j (by simpa using h)

lemma foldl_count_length (pred : ℚ → Bool) (rest : List (List ℚ))
    (acc : List ℕ) (L : ℕ) (hacc : acc.length = L)
    (hlen : ∀ img ∈ rest, img.length = L) :
    (rest.foldl
      (fun a img =>
        List.zipWith (fun c v => c + (if pred v then 1 else 0)) a img)
      acc).length = L := by
  induction rest generalizing acc with
  | nil => simpa using hacc
  | cons img rest ih =>
      rw [List.foldl_cons]
      refine ih _ ?_ (fun im hm => hlen im (List.mem_cons_of_mem _ hm))
      rw [List.length_zipWith, hacc, hlen img (List.mem_cons_self _ _)]
      exact Nat.min_self L

lemma foldl_count_getD (pred : ℚ → Bool) (rest : List (List ℚ))
    (acc : List ℕ) (L i : ℕ) (hacc : acc.length = L)
    (hlen : ∀ img ∈ rest, img.length = L) (hi : i < L) :
    (rest.foldl
      (fun a img =>
        List.zipWith (fun c v => c + (if pred v then 1 else 0)) a img)
      acc).getD i 0
      = acc.getD i 0 + rest.countP (fun img => pred (img.getD i 0)) := by
  induction rest generalizing acc with
  | nil => simp
  | cons img rest ih =>
      have himg : img.length = L := hlen img (List.mem_cons_self _ _)
      have hzlen :
          (List.zipWith (fun c v => c + (if pred v then 1 else 0))
            acc img).length = L := by
        rw [List.length_zipWith, hacc, himg]
        exact Nat.min_self L
      rw [List.foldl_cons,
        ih _ hzlen (fun im hm => hlen im (List.mem_cons_of_mem _ hm)),
        getD_zipWith_count pred acc img i (by omega) (by omega),
        List.countP_cons]
      cases hp : pred (img.getD i 0) <;> simp [hp]
      all_goals omega

lemma countImage_length (pred : ℚ → Bool) (imgs : List (List ℚ)) (L : ℕ)
    (hne : imgs ≠ []) (hlen : ∀ img ∈ imgs, img.length = L) :
    (countImage pred imgs).length = L := by
  cases imgs with
  | nil => exact absurd rfl hne
  | cons i0 rest =>
      unfold countImage
      refine foldl_count_length pred rest _ L ?_
        (fun im hm => hlen im (List.mem_cons_of_mem _ hm))
      rw [List.length_map]
      exact hlen i0 (List.mem_cons_self _ _)

lemma countImage_getD (pred : ℚ → Bool) (imgs : List (List ℚ)) (L i : ℕ)
    (hne : imgs ≠ []) (hlen : ∀ img ∈ imgs, img.length = L) (hi : i < L) :
    (countImage pred imgs).getD i 0
      = imgs.countP (fun img => pred (img.getD i 0)) := by
  cases imgs with
  | nil => exact absurd rfl hne
  | cons i0 rest =>
      have h0 : i0.length = L := hlen i0 (List.mem_cons_self _ _)
      unfold countImage
      rw [foldl_count_getD pred rest _ L i (by simpa using h0)
            (fun im hm => hlen im (List.mem_cons_of_mem _ hm)) hi,
        getD_map_indicator pred i0 i (by omega),
        List.countP_cons]
      cases hp : pred (i0.getD i 0) <;> simp [hp]
      all_goals omega

lemma conjPair_fst (lower upper : Option ℚ) (imgs : List (List ℚ))
    (h : ¬(lower = none ∧ upper = none)) :
    (conjPair lower upper imgs).1 = countImage (threshPred lower upper) imgs := by
  rcases lower with _ | l <;> rcases upper with _ | u
  · exact absurd ⟨rfl, rfl⟩ h
  · rfl
  · rfl
  · have hsplit : threshPred (some l) (some u)
        = if l < u then (fun v => decide (l < v) && decide (v < u))
          else (fun v => decide (l < v) || decide (v < u)) := by
      funext v
      simp only [threshPred]
      by_cases hlu : l < u
      · rw [if_pos hlu, if_pos hlu]
      · rw [if_neg hlu, if_neg hlu]
    simp only [conjPair]
    rw [hsplit]
    by_cases hlu : l < u
    · rw [if_pos hlu, if_pos hlu]
    · rw [if_neg hlu, if_neg hlu]

/-- Claim C1: for every nonempty list of analyses in which the named image
is present everywhere (with a common voxel count `L`), and every threshold
configuration that is neither empty nor two equal thresholds,
`conjunction` succeeds and its `'conjunction'` image holds, at every voxel
`i < L`, the number of input images whose value at `i` satisfies the
spec's predicate: `> lower_thr` when only the lower threshold is given,
`< upper_thr` when only the upper one is given, both conditions when both
are given with `lower_thr < upper_thr`, and either condition when both
are given with `lower_thr > upper_thr`. -/
theorem conjunction_voxel_counts (meta_list : List MetaAnalysisPlus)
    (image_name : String) (lower upper : Option ℚ)
    (expression : Option String) (extra_info : List (String × String))
    (imgs : List (List ℚ)) (L : ℕ)
    (hne : meta_list ≠ [])
    (hgather : gatherImgs meta_list image_name = Except.ok imgs)
    (hlen : ∀ img ∈ imgs, img.length = L)
    (hsome : ¬(lower = none ∧ upper = none))
    (hneq : lower ≠ upper) :
    ∃ res, MetaAnalysisPlus.conjunction meta_list image_name lower upper
        expression extra_info = Except.ok res ∧
      ∃ c, res.getImg ("conjunction") = some c ∧
        ∀ i, i < L →
          c.getD i 0
            = ((imgs.countP
                (fun img => threshPred lower upper (img.getD i 0)) : ℕ) : ℚ) := by
  obtain ⟨m0, tl, rfl⟩ : ∃ m0 tl, meta_list = m0 :: tl := by
    cases meta_list with
    | nil => exact absurd rfl hne
    | cons m0 tl => exact ⟨m0, tl, rfl⟩
  have himgne : imgs ≠ [] := by
    have hlin := gatherImgs_ok_length (m0 :: tl) image_name imgs hgather
    intro hnil
    rw [hnil] at hlin
    simp at hlin
  have hconj : MetaAnalysisPlus.conjunction (m0 :: tl) image_name lower upper
      expression extra_info
      = Except.ok
          ⟨conjInfo image_name (conjPair lower upper imgs).2 expression extra_info,
           m0.dataset,
           [("conjunction",
             (conjPair lower upper imgs).1.map (fun n => (n : ℚ)))]⟩ := by
    unfold MetaAnalysisPlus.conjunction
    rw [if_neg hsome, if_neg hneq, hgather]
  refine ⟨_, hconj, (conjPair lower upper imgs).1.map (fun n => (n : ℚ)),
    ?_, ?_⟩
  · simp [MetaAnalysisPlus.getImg]
  · intro i hi
    rw [conjPair_fst lower upper imgs hsome,
      getD_map_natCast _ i
        (by rw [countImage_length (threshPred lower upper) imgs L himgne hlen]
            exact hi),
      countImage_getD (threshPred lower upper) imgs L i himgne hlen hi]

/-- Witness for `conjunction_voxel_counts`: the spec's §8 example — two
analyses with image `[[1, -1], [2, -2]]` stacked, lower threshold `0`,
no upper threshold — yields at each of the two voxels the count of values
strictly greater than `0` (namely `2` and `0`). -/
theorem conjunction_voxel_counts_witness :
    (∃ res, MetaAnalysisPlus.conjunction
        [⟨Info.ofPairs [("expression", "a")], 0, [("z", [1, -1])]⟩,
         ⟨Info.ofPairs [("expression", "a")], 0, [("z", [2, -2])]⟩]
        ("z") (some 0) none none [] = Except.ok res ∧
      ∃ c, res.getImg ("conjunction") = some c ∧
        ∀ i, i < 2 →
          c.getD i 0
            = (([[(1 : ℚ), -1], [2, -2]].countP
                (fun img => threshPred (some 0) none (img.getD i 0)) : ℕ) : ℚ)) ∧
    ([[(1 : ℚ), -1], [2, -2]].countP
        (fun img => threshPred (some 0) none (img.getD 0 0)) = 2 ∧
     [[(1 : ℚ), -1], [2, -2]].countP
        (fun img => threshPred (some 0) none (img.getD 1 0)) = 0) := by
  constructor
  · exact conjunction_voxel_counts
      [⟨Info.ofPairs [("expression", "a")], 0, [("z", [1, -1])]⟩,
       ⟨Info.ofPairs [("expression", "a")], 0, [("z", [2, -2])]⟩]
      ("z") (some 0) none none [] [[(1 : ℚ), -1], [2, -2]] 2
      (by simp) rfl (by decide)
      (by simp) (by simp)
  · exact ⟨by decide, by decide⟩

/-! ## Image-name parsing: digits and decimal rendering -/

lemma isDigitChar_digitChar (d : Nat) (h : d < 10) :
    isDigitChar (digitChar d) = true := by
  interval_cases d <;> decide

lemma digitVal_digitChar (d : Nat) (h : d < 10) :
    digitVal (digitChar d) = d := by
  interval_cases d <;> decide

lemma natDigitsAux_digits (fuel : Nat) :
    ∀ n, ∀ c ∈ natDigitsAux fuel n, isDigitChar c = true := by
  induction fuel with
  | zero =>
      intro n c hc
      simp [natDigitsAux] at hc
  | succ fuel ih =>
      intro n c hc
      unfold natDigitsAux at hc
      by_cases hn : n = 0
      · rw [if_pos hn] at hc
        simp at hc
      · rw [if_neg hn] at hc
        rcases List.mem_append.mp hc with h1 | h2
        · exact ih (n / 10) c h1
        · have hce : c = digitChar (n % 10) := by simpa using h2
          rw [hce]
          exact isDigitChar_digitChar _ (Nat.mod_lt n (by omega))

lemma natDigits_digits (n : Nat) :
    ∀ c ∈ natDigits n, isDigitChar c = true := by
  unfold natDigits
  by_cases hn : n = 0
  · rw [if_pos hn]
    intro c hc
    have : c = '0' := by simpa using hc
    rw [this]
    decide
  · rw [if_neg hn]
    exact natDigitsAux_digits n n

lemma natDigits_ne_nil (n : Nat) : natDigits n ≠ [] := by
  unfold natDigits
  by_cases hn : n = 0
  · rw [if_pos hn]
    simp
  · rw [if_neg hn]
    cases n with
    | zero => exact absurd rfl hn
    | succ m =>
        unfold natDigitsAux
        rw [if_neg hn]
        simp

lemma digitsVal_append (l : List Char) (c : Char) :
    digitsVal (l ++ [c]) = 10 * digitsVal l + digitVal c := by
  simp [digitsVal, List.foldl_append]

lemma digitsVal_natDigitsAux (fuel : Nat) :
    ∀ n, n ≤ fuel → digitsVal (natDigitsAux fuel n) = n := by
  induction fuel with
  | zero =>
      intro n hn
      have : n = 0 := by omega
      rw [this]
      rfl
  | succ fuel ih =>
      intro n hn
      unfold natDigitsAux
      by_cases h0 : n = 0
      · rw [if_pos h0, h0]
        rfl
      · rw [if_neg h0, digitsVal_append,
          ih (n / 10) (by
            have := Nat.div_lt_self (by omega : 0 < n) (by omega : 1 < 10)
            omega),
          digitVal_digitChar _ (Nat.mod_lt n (by omega))]
        omega

lemma digitsVal_natDigits (n : Nat) : digitsVal (natDigits n) = n := by
  unfold natDigits
  by_cases hn : n = 0
  · rw [if_pos hn, hn]
    decide
  · rw [if_neg hn]
    exact digitsVal_natDigitsAux n n le_rfl

lemma natDigitsPad_digits (k : Nat) :
    ∀ m, ∀ c ∈ natDigitsPad m k, isDigitChar c = true := by
  induction k with
  | zero =>
      intro m c hc
      simp [natDigitsPad] at hc
  | succ k ih =>
      intro m c hc
      unfold natDigitsPad at hc
      rcases List.mem_append.mp hc with h1 | h2
      · exact ih (m / 10) c h1
      · have hce : c = digitChar (m % 10) := by simpa using h2
        rw [hce]
        exact isDigitChar_digitChar _ (Nat.mod_lt m (by omega))

lemma natDigitsPad_length (k : Nat) : ∀ m, (natDigitsPad m k).length = k := by
  induction k with
  | zero => intro m; rfl
  | succ k ih =>
      intro m
      unfold natDigitsPad
      rw [List.length_append, ih (m / 10)]
      simp

lemma mod_ten_pow_succ (m k : Nat) :
    m % 10 ^ (k + 1) = 10 * (m / 10 % 10 ^ k) + m % 10 := by
  have hb : 0 < 10 ^ k := Nat.pos_pow_of_pos k (by omega)
  have hlt : 10 * (m / 10 % 10 ^ k) + m % 10 < 10 * 10 ^ k := by
    have := Nat.mod_lt (m / 10) hb
    omega
  have hdecomp : m = (10 * 10 ^ k) * (m / 10 / 10 ^ k)
      + (10 * (m / 10 % 10 ^ k) + m % 10) := by
    have h2 := Nat.div_add_mod (m / 10) (10 ^ k)
    have h1 := Nat.div_add_mod m 10
    calc m = 10 * (m / 10) + m % 10 := by omega
    _ = 10 * (10 ^ k * (m / 10 / 10 ^ k) + m / 10 % 10 ^ k) + m % 10 := by
          rw [h2]
    _ = (10 * 10 ^ k) * (m / 10 / 10 ^ k)
          + (10 * (m / 10 % 10 ^ k) + m % 10) := by ring
  rw [pow_succ, mul_comm (10 ^ k) 10]
  conv_lhs => rw [hdecomp]
  rw [Nat.mul_add_mod]
  exact Nat.mod_eq_of_lt hlt

lemma digitsVal_natDigitsPad (k : Nat) :
    ∀ m, digitsVal (natDigitsPad m k) = m % 10 ^ k := by
  induction k with
  | zero =>
      intro m
      simp [natDigitsPad, digitsVal, Nat.mod_one]
  | succ k ih =>
      intro m
      unfold natDigitsPad
      rw [digitsVal_append, ih (m / 10),
        digitVal_digitChar _ (Nat.mod_lt m (by omega)),
        mod_ten_pow_succ]

lemma isDigitChar_ne_dot {c : Char} (h : isDigitChar c = true) : c ≠ '.' := by
  intro he
  rw [he] at h
  exact absurd h (by decide)

lemma takeWhile_of_all {α : Type} (p : α → Bool) (l : List α)
    (h : ∀ c ∈ l, p c = true) : l.takeWhile p = l := by
  induction l with
  | nil => rfl
  | cons c cs ih =>
      rw [List.takeWhile_cons, h c (List.mem_cons_self _ _)]
      simp [ih (fun d hd => h d (List.mem_cons_of_mem _ hd))]

lemma takeWhile_append_stop {α : Type} (p : α → Bool) (a : List α) (c : α)
    (b : List α) (ha : ∀ x ∈ a, p x = true) (hc : p c = false) :
    (a ++ c :: b).takeWhile p = a := by
  induction a with
  | nil =>
      rw [List.nil_append, List.takeWhile_cons, hc]
      simp
  | cons x xs ih =>
      rw [List.cons_append, List.takeWhile_cons, ha x (List.mem_cons_self _ _)]
      simp [ih (fun y hy => ha y (List.mem_cons_of_mem _ hy))]

lemma parseUF_digits (l : List Char) (hne : l ≠ [])
    (hd : ∀ c ∈ l, isDigitChar c = true) :
    parseUnsignedFloat l = some ((digitsVal l : ℚ)) := by
  have ht : l.takeWhile (fun c => decide (c ≠ '.')) = l :=
    takeWhile_of_all _ l
      (fun c hc => by simpa using isDigitChar_ne_dot (hd c hc))
  simp only [parseUnsignedFloat, ht, List.drop_length]
  rw [if_pos]
  simp only [Bool.and_eq_true, decide_eq_true_eq, ne_eq, List.all_eq_true]
  exact ⟨by simpa using hne, hd⟩

lemma elem_eq_false_of_digits (b : List Char)
    (hb : ∀ c ∈ b, isDigitChar c = true) : b.contains '.' = false := by
  cases he : b.contains '.' with
  | false => rfl
  | true =>
      have : ('.') ∈ b := List.mem_of_elem_eq_true he
      exact absurd (hb _ this) (by decide)

lemma parseUF_point (a b : List Char) (ha : ∀ c ∈ a, isDigitChar c = true)
    (hb : ∀ c ∈ b, isDigitChar c = true) (hne : a ≠ [] ∨ b ≠ []) :
    parseUnsignedFloat (a ++ '.' :: b)
      = some ((digitsVal a : ℚ) + (digitsVal b : ℚ) / 10 ^ b.length) := by
  have ht : (a ++ '.' :: b).takeWhile (fun c => decide (c ≠ '.')) = a :=
    takeWhile_append_stop _ a '.' b
      (fun c hc => by simpa using isDigitChar_ne_dot (ha c hc))
      (by simp)
  have hdrop : (a ++ '.' :: b).drop a.length = '.' :: b := List.drop_left a _
  simp only [parseUnsignedFloat, ht, hdrop]
  rw [if_pos]
  simp only [Bool.and_eq_true, Bool.not_eq_true', decide_eq_true_eq, ne_eq,
    List.all_eq_true, Bool.or_eq_true]
  refine ⟨⟨⟨elem_eq_false_of_digits b hb, ha⟩, hb⟩, ?_⟩
  rcases hne with h | h
  · exact Or.inl (by simpa using h)
  · exact Or.inr (by simpa using h)

lemma head_digits_ne_minus (l rest : List Char) (hl : l ≠ [])
    (hd : ∀ c ∈ l, isDigitChar c = true) :
    (l ++ rest).head? ≠ some (Char.ofNat 45) := by
  cases l with
  | nil => exact absurd rfl hl
  | cons c cs =>
      intro h
      have hc : c = Char.ofNat 45 := by simpa using h
      have := hd c (List.mem_cons_self _ _)
      rw [hc] at this
      exact absurd this (by decide)

lemma parseFloat_eq_parseUF (cs : List Char) (hne : cs ≠ [])
    (hhead : cs.head? ≠ some (Char.ofNat 45)) :
    parseFloat cs = parseUnsignedFloat cs := by
  cases cs with
  | nil => exact absurd rfl hne
  | cons c rest =>
      have hc : c ≠ Char.ofNat 45 := by
        intro h
        exact hhead (by rw [h]; rfl)
      simp only [parseFloat]
      rw [if_neg hc]

lemma parseFloat_minus (rest : List Char) :
    parseFloat (Char.ofNat 45 :: rest)
      = (parseUnsignedFloat rest).map (fun q => -q) := by
  simp only [parseFloat]
  simp

/-- The unsigned decimal rendering parses back to `n / 10^k`. -/
lemma parseUF_renderCore (n k : Nat) :
    parseUnsignedFloat (natDigits (n / 10 ^ k) ++
        (if k = 0 then [] else '.' :: natDigitsPad (n % 10 ^ k) k))
      = some ((n : ℚ) / 10 ^ k) := by
  by_cases hk : k = 0
  · subst hk
    have h0 : (if (0 : Nat) = 0 then ([] : List Char)
        else '.' :: natDigitsPad (n % 10 ^ 0) 0) = [] := rfl
    rw [h0, List.append_nil, pow_zero, Nat.div_one,
      parseUF_digits _ (natDigits_ne_nil _) (natDigits_digits _),
      digitsVal_natDigits]
    norm_num
  · rw [if_neg hk,
      parseUF_point _ _ (natDigits_digits _) (natDigitsPad_digits _ _)
        (Or.inl (natDigits_ne_nil _)),
      digitsVal_natDigits, digitsVal_natDigitsPad, natDigitsPad_length]
    have hmm : n % 10 ^ k % 10 ^ k = n % 10 ^ k :=
      Nat.mod_eq_of_lt (Nat.mod_lt n (Nat.pos_pow_of_pos k (by omega)))
    rw [hmm]
    have hdm : ((10 : ℚ) ^ k) * ((n / 10 ^ k : Nat) : ℚ)
        + ((n % 10 ^ k : Nat) : ℚ) = (n : ℚ) := by
      exact_mod_cast Nat.div_add_mod n (10 ^ k)
    have hpow : ((10 : ℚ) ^ k) ≠ 0 := by positivity
    congr 1
    field_simp
    linarith [hdm]

/-- Round trip of the numeric suffix: the decimal rendering of
`(-1)^neg * n / 10^k` parses back, via the modelled Python `float`, to
exactly that rational number. -/
lemma parseFloat_renderDec (neg : Bool) (n k : Nat) :
    parseFloat (renderDec neg n k) = some (decVal neg n k) := by
  cases neg with
  | false =>
      have hr : renderDec false n k
          = natDigits (n / 10 ^ k) ++
            (if k = 0 then [] else '.' :: natDigitsPad (n % 10 ^ k) k) := by
        simp [renderDec]
      rw [hr, parseFloat_eq_parseUF _
          (by
            intro h
            exact natDigits_ne_nil (n / 10 ^ k) (List.append_eq_nil.mp h).1)
          (head_digits_ne_minus _ _ (natDigits_ne_nil _) (natDigits_digits _)),
        parseUF_renderCore]
      unfold decVal
      norm_num
  | true =>
      have hr : renderDec true n k
          = Char.ofNat 45 ::
            (natDigits (n / 10 ^ k) ++
             (if k = 0 then [] else '.' :: natDigitsPad (n % 10 ^ k) k)) := by
        simp [renderDec]
      rw [hr, parseFloat_minus, parseUF_renderCore]
      unfold decVal
      norm_num
      ring

/-! ## Image-name parsing: family-name matching -/

lemma not_infix_append (needle n₀ P r : List Char) (c : Char)
    (hsplit : needle = n₀ ++ [c]) (hcr : c ∉ r) (hP : ¬ needle <:+: P) :
    ¬ needle <:+: (P ++ r) := by
  intro hinf
  obtain ⟨s, t, hst⟩ := hinf
  have hst' : s ++ (needle ++ t) = P ++ r := by
    rw [← List.append_assoc]
    exact hst
  rcases List.append_eq_append_iff.mp hst' with ⟨a, hPa, hna⟩ | ⟨a, hsa, hra⟩
  · rcases List.append_eq_append_iff.mp hna with ⟨w, haw, htw⟩ | ⟨w, hnw, hrw⟩
    · exact hP ⟨s, w, by rw [hPa, haw, ← List.append_assoc]⟩
    · cases w with
      | nil =>
          apply hP
          refine ⟨s, [], ?_⟩
          rw [List.append_nil] at hnw
          rw [List.append_nil, hPa, hnw]
      | cons w0 ws =>
          apply hcr
          have h1 : needle.getLast? = some c := by
            rw [hsplit]
            exact List.getLast?_concat _
          have h2 : (w0 :: ws).getLast? = some c := by
            rw [hnw] at h1
            rwa [List.getLast?_append_of_ne_nil a (by simp)] at h1
          rw [hrw]
          exact List.mem_append_left _ (List.mem_of_mem_getLast? h2)
  · apply hcr
    rw [hra]
    have hc : c ∈ needle := by
      rw [hsplit]
      exact List.mem_append_right _ (by simp)
    exact List.mem_append_right _ (List.mem_append_left _ hc)

lemma renderDec_chars (neg : Bool) (n k : Nat) :
    ∀ c ∈ renderDec neg n k,
      isDigitChar c = true ∨ c = '.' ∨ c = Char.ofNat 45 := by
  intro c hc
  unfold renderDec at hc
  rcases List.mem_append.mp hc with h1 | h2
  · rcases List.mem_append.mp h1 with ha | hb
    · cases neg with
      | false => simp at ha
      | true =>
          have : c = Char.ofNat 45 := by simpa using ha
          exact Or.inr (Or.inr this)
    · exact Or.inl (natDigits_digits _ c hb)
  · by_cases hk : k = 0
    · rw [if_pos hk] at h2
      simp at h2
    · rw [if_neg hk] at h2
      rcases List.mem_cons.mp h2 with hdot | hpad
      · exact Or.inr (Or.inl hdot)
      · exact Or.inl (natDigitsPad_digits _ _ c hpad)

lemma not_mem_renderDec (c : Char) (hd : isDigitChar c = false)
    (h1 : c ≠ '.') (h2 : c ≠ Char.ofNat 45) (neg : Bool) (n k : Nat) :
    c ∉ renderDec neg n k := by
  intro hc
  rcases renderDec_chars neg n k c hc with h | h | h
  · simp [hd] at h
  · exact h1 h
  · exact h2 h

lemma mk_append_not_mem_img_names (P : String) (r : List Char) (c : Char)
    (hcP : c ∈ P.data) (hcI : ∀ s ∈ NsInfo.img_names, c ∉ s.data) :
    String.mk (P.data ++ r) ∉ NsInfo.img_names := by
  intro hmem
  exact hcI _ hmem (List.mem_append_left _ hcP)

lemma drop_strlen (P : String) (r : List Char) :
    (P.data ++ r).drop P.length = r := by
  have h : P.length = P.data.length := rfl
  rw [h, List.drop_left]

lemma findParamSuffix_cons (p : String) (rest : List String) (name : String) :
    NsInfo.findParamSuffix (p :: rest) name
      = if p.data <:+: name.data then some (name.data.drop p.length)
        else NsInfo.findParamSuffix rest name := rfl

lemma get_num_eq_prior (name : String) (neg : Bool) (n k : Nat)
    (hnotimg : name ∉ NsInfo.img_names)
    (hfind : NsInfo.findParamSuffix NsInfo.prior_img_names name
      = some (renderDec neg n k)) :
    NsInfo.get_num_from_img_name name
      = some (NumInfo.prior (decVal neg n k)) := by
  unfold NsInfo.get_num_from_img_name
  rw [if_neg hnotimg, hfind]
  show (parseFloat (renderDec neg n k)).map NumInfo.prior = _
  rw [parseFloat_renderDec]
  rfl

lemma get_num_eq_fdr (name : String) (neg : Bool) (n k : Nat)
    (hnotimg : name ∉ NsInfo.img_names)
    (hprior : NsInfo.findParamSuffix NsInfo.prior_img_names name = none)
    (hfind : NsInfo.findParamSuffix NsInfo.fdr_img_names name
      = some (renderDec neg n k)) :
    NsInfo.get_num_from_img_name name
      = some (NumInfo.fdr (decVal neg n k)) := by
  unfold NsInfo.get_num_from_img_name
  rw [if_neg hnotimg, hprior, hfind]
  show (parseFloat (renderDec neg n k)).map NumInfo.fdr = _
  rw [parseFloat_renderDec]
  rfl

/-- Claim C8: `get_num_from_img_name` returns the empty dictionary for
every image name in the closed set of base names, and parses a
parametrized name back into its numeric parameter: for every decimal
number (sign `neg`, digits `n`, `k` decimal places), a prior-family
prefix followed by the decimal rendering of the number yields
`{'prior': x}`, and an FDR-family prefix followed by the decimal
rendering yields `{'fdr': x}`, where `x` is exactly the rendered value —
a round trip between suffix rendering and parsing. -/
theorem get_num_round_trip :
    (∀ s ∈ NsInfo.img_names,
       NsInfo.get_num_from_img_name s = some NumInfo.empty) ∧
    (∀ p ∈ NsInfo.prior_img_names, ∀ (neg : Bool) (n k : Nat),
       NsInfo.get_num_from_img_name (String.mk (p.data ++ renderDec neg n k))
         = some (NumInfo.prior (decVal neg n k))) ∧
    (∀ p ∈ NsInfo.fdr_img_names, ∀ (neg : Bool) (n k : Nat),
       NsInfo.get_num_from_img_name (String.mk (p.data ++ renderDec neg n k))
         = some (NumInfo.fdr (decVal neg n k))) := by
  have heqnr : ∀ neg n k, (Char.ofNat 61) ∉ renderDec neg n k :=
    fun neg n k =>
      not_mem_renderDec _ (by decide) (by decide) (by decide) neg n k
  have hunr : ∀ neg n k, (Char.ofNat 95) ∉ renderDec neg n k :=
    fun neg n k =>
      not_mem_renderDec _ (by decide) (by decide) (by decide) neg n k
  refine ⟨?_, ?_, ?_⟩
  · intro s hs
    fin_cases hs <;> decide
  · intro p hp neg n k
    have hp' : p = "pAgF_given_pF=" ∨ p = "pFgA_given_pF=" := by
      simpa [NsInfo.prior_img_names] using hp
    rcases hp' with rfl | rfl
    · refine get_num_eq_prior _ neg n k
        (mk_append_not_mem_img_names _ _ (Char.ofNat 61) (by decide) (by decide))
        ?_
      rw [show NsInfo.prior_img_names
          = ["pAgF_given_pF=", "pFgA_given_pF="] from rfl,
        findParamSuffix_cons,
        if_pos (show ("pAgF_given_pF=" : String).data <:+:
            (String.mk ("pAgF_given_pF=".data ++ renderDec neg n k)).data from
          ⟨[], renderDec neg n k, by simp⟩),
        show (String.mk ("pAgF_given_pF=".data ++ renderDec neg n k)).data
          = "pAgF_given_pF=".data ++ renderDec neg n k from rfl,
        drop_strlen]
    · refine get_num_eq_prior _ neg n k
        (mk_append_not_mem_img_names _ _ (Char.ofNat 61) (by decide) (by decide))
        ?_
      have hnot1 : ¬ ("pAgF_given_pF=" : String).data <:+:
          (String.mk ("pFgA_given_pF=".data ++ renderDec neg n k)).data := by
        rw [show (String.mk ("pFgA_given_pF=".data ++ renderDec neg n k)).data
          = "pFgA_given_pF=".data ++ renderDec neg n k from rfl]
        exact not_infix_append _ ("pAgF_given_pF".data) _ _ (Char.ofNat 61)
          (by decide) (heqnr neg n k) (by decide)
      rw [show NsInfo.prior_img_names
          = ["pAgF_given_pF=", "pFgA_given_pF="] from rfl,
        findParamSuffix_cons, if_neg hnot1, findParamSuffix_cons,
        if_pos (show ("pFgA_given_pF=" : String).data <:+:
            (String.mk ("pFgA_given_pF=".data ++ renderDec neg n k)).data from
          ⟨[], renderDec neg n k, by simp⟩),
        show (String.mk ("pFgA_given_pF=".data ++ renderDec neg n k)).data
          = "pFgA_given_pF=".data ++ renderDec neg n k from rfl,
        drop_strlen]
  · intro p hp neg n k
    have hp' : p = "uniformity-test_z_FDR_" ∨ p = "association-test_z_FDR_" := by
      simpa [NsInfo.fdr_img_names] using hp
    have hpriornone : ∀ (base : String),
        ¬ ("pAgF_given_pF=" : String).data <:+: (base.data ++ renderDec neg n k) →
        ¬ ("pFgA_given_pF=" : String).data <:+: (base.data ++ renderDec neg n k) →
        NsInfo.findParamSuffix NsInfo.prior_img_names
          (String.mk (base.data ++ renderDec neg n k)) = none := by
      intro base h1 h2
      rw [show NsInfo.prior_img_names
          = ["pAgF_given_pF=", "pFgA_given_pF="] from rfl,
        findParamSuffix_cons,
        if_neg (by
            rw [show (String.mk (base.data ++ renderDec neg n k)).data
              = base.data ++ renderDec neg n k from rfl]
            exact h1),
        findParamSuffix_cons,
        if_neg (by
            rw [show (String.mk (base.data ++ renderDec neg n k)).data
              = base.data ++ renderDec neg n k from rfl]
            exact h2)]
      rfl
    rcases hp' with rfl | rfl
    · refine get_num_eq_fdr _ neg n k
        (mk_append_not_mem_img_names _ _ ('D') (by decide) (by decide))
        (hpriornone _
          (not_infix_append _ ("pAgF_given_pF".data) _ _ (Char.ofNat 61)
            (by decide) (heqnr neg n k) (by decide))
          (not_infix_append _ ("pFgA_given_pF".data) _ _ (Char.ofNat 61)
            (by decide) (heqnr neg n k) (by decide)))
        ?_
      rw [show NsInfo.fdr_img_names
          = ["uniformity-test_z_FDR_", "association-test_z_FDR_"] from rfl,
        findParamSuffix_cons,
        if_pos (show ("uniformity-test_z_FDR_" : String).data <:+:
            (String.mk ("uniformity-test_z_FDR_".data ++ renderDec neg n k)).data from
          ⟨[], renderDec neg n k, by simp⟩),
        show (String.mk ("uniformity-test_z_FDR_".data ++ renderDec neg n k)).data
          = "uniformity-test_z_FDR_".data ++ renderDec neg n k from rfl,
        drop_strlen]
    · refine get_num_eq_fdr _ neg n k
        (mk_append_not_mem_img_names _ _ ('D') (by decide) (by decide))
        (hpriornone _
          (not_infix_append _ ("pAgF_given_pF".data) _ _ (Char.ofNat 61)
            (by decide) (heqnr neg n k) (by decide))
          (not_infix_append _ ("pFgA_given_pF".data) _ _ (Char.ofNat 61)
            (by decide) (heqnr neg n k) (by decide)))
        ?_
      have hnotu : ¬ ("uniformity-test_z_FDR_" : String).data <:+:
          (String.mk ("association-test_z_FDR_".data ++ renderDec neg n k)).data := by
        rw [show (String.mk ("association-test_z_FDR_".data ++ renderDec neg n k)).data
          = "association-test_z_FDR_".data ++ renderDec neg n k from rfl]
        exact not_infix_append _ ("uniformity-test_z_FDR".data) _ _ (Char.ofNat 95)
          (by decide) (hunr neg n k) (by decide)
      rw [show NsInfo.fdr_img_names
          = ["uniformity-test_z_FDR_", "association-test_z_FDR_"] from rfl,
        findParamSuffix_cons, if_neg hnotu, findParamSuffix_cons,
        if_pos (show ("association-test_z_FDR_" : String).data <:+:
            (String.mk ("association-test_z_FDR_".data ++ renderDec neg n k)).data from
          ⟨[], renderDec neg n k, by simp⟩),
        show (String.mk ("association-test_z_FDR_".data ++ renderDec neg n k)).data
          = "association-test_z_FDR_".data ++ renderDec neg n k from rfl,
        drop_strlen]

/-- Witness for `get_num_round_trip`: the base name `"pA"` yields the
empty dictionary; `"pAgF_given_pF="` followed by the rendering of `0.5`
(digits `5`, one decimal place) yields that prior value; and
`"uniformity-test_z_FDR_"` followed by the rendering of `0.05` yields
that FDR value. -/
theorem get_num_round_trip_witness :
    NsInfo.get_num_from_img_name ("pA") = some NumInfo.empty ∧
    NsInfo.get_num_from_img_name
        (String.mk ("pAgF_given_pF=".data ++ renderDec false 5 1))
      = some (NumInfo.prior (decVal false 5 1)) ∧
    NsInfo.get_num_from_img_name
        (String.mk ("uniformity-test_z_FDR_".data ++ renderDec false 5 2))
      = some (NumInfo.fdr (decVal false 5 2)) :=
  ⟨get_num_round_trip.1 ("pA") (by decide),
   get_num_round_trip.2.1 ("pAgF_given_pF=") (by decide) false 5 1,
   get_num_round_trip.2.2 ("uniformity-test_z_FDR_") (by decide) false 5 2⟩
